import Mathlib

/-!
Verification of the qlog log-viewer core against its specification.

The Rust sources are embedded shallowly:
* bytes are natural numbers (the code only ever compares and tables them);
* byte strings (memory-mapped regions, lines, patterns) are `List Nat`;
* Rust `String` values are `List Char` together with an explicit UTF-8
  encoding function, because the code converts strings to bytes;
* `usize` arithmetic that cannot overflow on the inputs considered is plain
  `Nat` arithmetic; Rust `saturating_sub` is truncated `Nat` subtraction;
* indexing that can panic in Rust is modelled with `Option`, `none` marking
  the panic;
* the Boyer-Moore-Horspool scan loops advance their position by at least one
  byte per iteration (the skip table is everywhere positive for a non-empty
  pattern, proved below), so they terminate within `text.length` iterations;
  they are embedded structurally with that iteration bound as explicit fuel,
  and the characterisation theorems below hold for every sufficient fuel.
-/

namespace QLog

/-! ### Bytes and lowercasing (src/model/filter.rs, src/app.rs) -/

/-- Models `u8::to_ascii_lowercase` (and the private `ascii_lower` helpers in
filter.rs): ASCII uppercase bytes are shifted into lowercase, every other
byte — including every non-ASCII byte — is unchanged. -/
def asciiLower (b : Nat) : Nat :=
  if 65 ≤ b ∧ b ≤ 90 then b + 32 else b

/-- Models Rust `char::to_lowercase` / `str::to_lowercase` (the Unicode
simple lowercase mapping) on the code points below `U+0100`: ASCII uppercase
letters and the Latin-1 uppercase letters `U+00C0`–`U+00D6`, `U+00D8`–`U+00DE`
map to their lowercase forms 32 code points higher; all other characters are
returned unchanged.  Above `U+00FF` the mapping is taken as the identity,
which is exact for every input considered in this file. -/
def rustCharLower (c : Char) : Char :=
  if (65 ≤ c.toNat ∧ c.toNat ≤ 90) ∨
     (0xC0 ≤ c.toNat ∧ c.toNat ≤ 0xD6) ∨
     (0xD8 ≤ c.toNat ∧ c.toNat ≤ 0xDE) then
    Char.ofNat (c.toNat + 32)
  else c

/-- Models Rust `String::to_lowercase`, character by character. -/
def rustToLowercase (s : List Char) : List Char :=
  s.map rustCharLower

/-- UTF-8 encoding of one character, as Rust `String::into_bytes` /
`str::bytes` produce it. -/
def utf8EncodeChar (c : Char) : List Nat :=
  let n := c.toNat
  if n < 0x80 then [n]
  else if n < 0x800 then [0xC0 + n / 64, 0x80 + n % 64]
  else if n < 0x10000 then
    [0xE0 + n / 4096, 0x80 + n / 64 % 64, 0x80 + n % 64]
  else
    [0xF0 + n / 262144, 0x80 + n / 4096 % 64, 0x80 + n / 64 % 64, 0x80 + n % 64]

/-- The UTF-8 bytes of a string (Rust `str::bytes` / `String::into_bytes`). -/
def strBytes (s : List Char) : List Nat :=
  (s.map utf8EncodeChar).flatten

/-! ### Boyer-Moore-Horspool matcher (src/model/filter.rs, lines 1-147)

`BMHMatcher::new` stores the pattern together with a 256-entry skip table and
the cached pattern length; table and length are functions of the pattern and
are embedded as the derived definitions `buildSkipTable` and
`List.length`. -/

structure BMHMatcher where
  pattern : List Nat
  deriving DecidableEq, Repr

/-- Models `BMHMatcher::new` (filter.rs lines 18-35). -/
def BMHMatcher.new (pattern : List Nat) : BMHMatcher :=
  ⟨pattern⟩

/-- The skip table built by `BMHMatcher::new` (filter.rs lines 20-28):
every byte starts at the full pattern length; the loop over
`0 .. pattern_len - 1` then sets the entry of `pattern[i]` to
`pattern_len - 1 - i` (later iterations overwrite earlier ones).  The source
guards the loop with `pattern_len > 0`; for the empty pattern
`List.range (0 - 1)` is already empty, so no guard is needed here. -/
def buildSkipTable (pattern : List Nat) : Nat → Nat :=
  (List.range (pattern.length - 1)).foldl
    (fun tbl i => fun b =>
      if b = pattern.getD i 0 then pattern.length - 1 - i else tbl b)
    (fun _ => pattern.length)

/-- The backward window comparison shared by `find` (filter.rs lines 64-73)
and `find_all` (lines 121-130): the window of text ending at `pos` matches
when `text[pos - (pattern_len - 1 - i)] == pattern[i]` for every
`i < pattern_len` (the loop walks `i` downwards and stops at the first
mismatch; the order of the comparisons does not affect the outcome). -/
def windowMatched (pattern text : List Nat) (pos : Nat) : Bool :=
  (List.range pattern.length).all fun i =>
    text.getD (pos - (pattern.length - 1 - i)) 0 == pattern.getD i 0

/-- The scan loop of `BMHMatcher::find` (filter.rs lines 60-85).  `fuel` is
the structural iteration bound discussed in the file header. -/
def findLoop (pattern text : List Nat) (skip : Nat → Nat) :
    Nat → Nat → Option Nat
  | 0, _ => none
  | fuel + 1, pos =>
    if pos < text.length then
      if windowMatched pattern text pos then
        some (pos - (pattern.length - 1))
      else
        findLoop pattern text skip fuel (pos + skip (text.getD pos 0))
    else none

/-- The scan loop of `BMHMatcher::find_all` (filter.rs lines 117-143).
After a match the position advances by exactly one byte (line 137), after a
mismatch by the skip-table entry of the byte under the window end. -/
def findAllLoop (pattern text : List Nat) (skip : Nat → Nat) :
    Nat → Nat → List (Nat × Nat)
  | 0, _ => []
  | fuel + 1, pos =>
    if pos < text.length then
      if windowMatched pattern text pos then
        (pos - (pattern.length - 1),
         pos - (pattern.length - 1) + pattern.length)
          :: findAllLoop pattern text skip fuel (pos + 1)
      else
        findAllLoop pattern text skip fuel (pos + skip (text.getD pos 0))
    else []

/-- Models `BMHMatcher::find` (filter.rs lines 40-86): empty pattern reports
a hit at 0; a pattern longer than the text reports no hit; a single-byte
pattern is a direct scan for the first occurrence of the byte; otherwise the
BMH loop runs from position `pattern_len - 1`. -/
def BMHMatcher.find (mt : BMHMatcher) (text : List Nat) : Option Nat :=
  let m := mt.pattern.length
  if m = 0 then some 0
  else if text.length < m then none
  else if m = 1 then
    text.findIdx? fun b => b == mt.pattern.getD 0 0
  else
    findLoop mt.pattern text (buildSkipTable mt.pattern) (text.length + 1) (m - 1)

/-- Models `BMHMatcher::contains` (filter.rs lines 89-91). -/
def BMHMatcher.contains (mt : BMHMatcher) (text : List Nat) : Bool :=
  (mt.find text).isSome

/-- Models `BMHMatcher::find_all` (filter.rs lines 95-146): empty pattern and
pattern longer than the text yield no matches; a single-byte pattern collects
every index holding the byte; otherwise the BMH loop runs from position
`pattern_len - 1`. -/
def BMHMatcher.findAll (mt : BMHMatcher) (text : List Nat) : List (Nat × Nat) :=
  let m := mt.pattern.length
  if m = 0 then []
  else if text.length < m then []
  else if m = 1 then
    ((List.range text.length).filter fun i =>
        text.getD i 0 == mt.pattern.getD 0 0).map fun i => (i, i + 1)
  else
    findAllLoop mt.pattern text (buildSkipTable mt.pattern) (text.length + 1) (m - 1)

/-! ### Specification-side description of substring occurrence

These definitions follow the spec's words ("the set of positions at which
the pattern occurs in the haystack, ordered by start ascending"); the
theorems below compare the embedded code against them. -/

/-- The pattern occurs in the text at start position `s`. -/
def OccursAt (pattern text : List Nat) (s : Nat) : Prop :=
  s + pattern.length ≤ text.length ∧
    ∀ i < pattern.length, text.getD (s + i) 0 = pattern.getD i 0

instance (pattern text : List Nat) (s : Nat) : Decidable (OccursAt pattern text s) := by
  unfold OccursAt; infer_instance

/-- All start positions at which the pattern occurs, in ascending order. -/
def allOccurrences (pattern text : List Nat) : List Nat :=
  (List.range (text.length + 1 - pattern.length)).filter fun s =>
    decide (OccursAt pattern text s)

/-- All occurrence starts that are at least `s0`, in ascending order
(the tail of `allOccurrences` still ahead of a scan that has reached start
position `s0`). -/
def occList (pattern text : List Nat) (s0 : Nat) : List Nat :=
  (List.range (text.length + 1 - pattern.length)).filter fun s =>
    decide (s0 ≤ s ∧ OccursAt pattern text s)

/-! ### Properties of the skip table -/

theorem buildSkipTable_foldl_pos (pattern : List Nat) (l : List Nat)
    (tbl : Nat → Nat) (htbl : ∀ b, 0 < tbl b)
    (hl : ∀ i ∈ l, 0 < pattern.length - 1 - i) (b : Nat) :
    0 < (l.foldl
      (fun tbl i => fun b =>
        if b = pattern.getD i 0 then pattern.length - 1 - i else tbl b)
      tbl) b := by
  induction l generalizing tbl with
  | nil => exact htbl b
  | cons i tl ih =>
    refine ih _ (fun c => ?_) (fun j hj => hl j (List.mem_cons_of_mem _ hj))
    show 0 < if c = pattern.getD i 0 then pattern.length - 1 - i else tbl c
    by_cases hc : c = pattern.getD i 0
    · rw [if_pos hc]; exact hl i (List.mem_cons_self _ _)
    · rw [if_neg hc]; exact htbl c

theorem buildSkipTable_pos (pattern : List Nat) (hp : pattern ≠ []) (b : Nat) :
    0 < buildSkipTable pattern b := by
  have hlen : 0 < pattern.length := List.length_pos.mpr hp
  refine buildSkipTable_foldl_pos pattern _ _ (fun _ => hlen) (fun i hi => ?_) b
  have := List.mem_range.mp hi
  omega

theorem buildSkipTable_foldl_le (pattern : List Nat) (l : List Nat)
    (tbl : Nat → Nat) (K b : Nat) (htbl : tbl b ≤ K)
    (hl : ∀ i ∈ l, pattern.length - 1 - i ≤ K) :
    (l.foldl
      (fun tbl i => fun b =>
        if b = pattern.getD i 0 then pattern.length - 1 - i else tbl b)
      tbl) b ≤ K := by
  induction l generalizing tbl with
  | nil => exact htbl
  | cons i tl ih =>
    refine ih _ ?_ (fun j hj => hl j (List.mem_cons_of_mem _ hj))
    show (if b = pattern.getD i 0 then pattern.length - 1 - i else tbl b) ≤ K
    by_cases hc : b = pattern.getD i 0
    · rw [if_pos hc]; exact hl i (List.mem_cons_self _ _)
    · rw [if_neg hc]; exact htbl

theorem buildSkipTable_le (pattern : List Nat) (b : Nat) :
    buildSkipTable pattern b ≤ pattern.length := by
  refine buildSkipTable_foldl_le pattern _ _ _ b le_rfl (fun i hi => ?_)
  omega

theorem buildSkipTable_foldl_min (pattern : List Nat) (l : List Nat)
    (tbl : Nat → Nat) (j b : Nat) (hsorted : l.Pairwise (· < ·))
    (hj : j ∈ l) (hb : pattern.getD j 0 = b) :
    (l.foldl
      (fun tbl i => fun b =>
        if b = pattern.getD i 0 then pattern.length - 1 - i else tbl b)
      tbl) b ≤ pattern.length - 1 - j := by
  induction l generalizing tbl with
  | nil => cases hj
  | cons i tl ih =>
    rcases List.pairwise_cons.mp hsorted with ⟨hgt, htl⟩
    rw [List.foldl_cons]
    rcases List.mem_cons.mp hj with hji | hjtl
    · subst hji
      refine buildSkipTable_foldl_le pattern tl _ _ b ?_ (fun x hx => ?_)
      · show (if b = pattern.getD j 0 then pattern.length - 1 - j else tbl b) ≤
          pattern.length - 1 - j
        rw [if_pos hb.symm]
      · have := hgt x hx
        omega
    · exact ih _ htl hjtl

theorem buildSkipTable_min (pattern : List Nat) (j b : Nat)
    (hj : j < pattern.length - 1) (hb : pattern.getD j 0 = b) :
    buildSkipTable pattern b ≤ pattern.length - 1 - j :=
  buildSkipTable_foldl_min pattern _ _ j b (List.pairwise_lt_range _)
    (List.mem_range.mpr hj) hb

/-! ### The window comparison and substring occurrence -/

theorem windowMatched_iff (pattern text : List Nat) (pos : Nat)
    (hm : 1 ≤ pattern.length) (hpos1 : pattern.length - 1 ≤ pos)
    (hpos2 : pos < text.length) :
    windowMatched pattern text pos = true ↔
      OccursAt pattern text (pos - (pattern.length - 1)) := by
  unfold windowMatched OccursAt
  rw [List.all_eq_true]
  constructor
  · intro h
    refine ⟨by omega, fun i hi => ?_⟩
    have hx := h i (List.mem_range.mpr hi)
    have heq : pos - (pattern.length - 1) + i = pos - (pattern.length - 1 - i) := by
      omega
    rw [heq]
    exact beq_iff_eq.mp (by simpa using hx)
  · intro h i hi
    have hi' := List.mem_range.mp hi
    have hx := h.2 i hi'
    have heq : pos - (pattern.length - 1) + i = pos - (pattern.length - 1 - i) := by
      omega
    rw [heq] at hx
    simpa using beq_iff_eq.mpr hx

/-- After a mismatching window ending at `pos`, no occurrence starts in the
positions skipped by the BMH shift: the classic Horspool argument. -/
theorem no_occurrence_skipped (pattern text : List Nat) (pos : Nat)
    (hm : 2 ≤ pattern.length) (hpos1 : pattern.length - 1 ≤ pos)
    (hpos2 : pos < text.length)
    (hno : windowMatched pattern text pos = false) :
    ∀ s, pos - (pattern.length - 1) ≤ s →
      s < pos - (pattern.length - 1) + buildSkipTable pattern (text.getD pos 0) →
      ¬ OccursAt pattern text s := by
  intro s h1 h2 hocc
  set m := pattern.length with hmdef
  set s0 := pos - (m - 1) with hs0
  rcases Nat.eq_or_lt_of_le h1 with heq | hlt
  · have : windowMatched pattern text pos = true :=
      (windowMatched_iff pattern text pos (by omega) hpos1 hpos2).mpr
        (by rw [← heq] at hocc; exact hocc)
    rw [this] at hno; cases hno
  · set b := text.getD pos 0 with hb
    set d := s - s0 with hd
    have hd1 : 1 ≤ d := by omega
    have hdlt : d < buildSkipTable pattern b := by omega
    have hdm : d ≤ m - 1 := by
      have := buildSkipTable_le pattern b
      omega
    have hidx : m - 1 - d < m := by omega
    have hxy := hocc.2 (m - 1 - d) hidx
    have hsum : s + (m - 1 - d) = pos := by omega
    rw [hsum] at hxy
    have hbmin : buildSkipTable pattern b ≤ m - 1 - (m - 1 - d) :=
      buildSkipTable_min pattern (m - 1 - d) b (by omega) hxy.symm
    omega

/-! ### Characterisation of the scan loops -/

theorem occList_eq_nil (pattern text : List Nat) (s0 : Nat)
    (h : text.length + 1 - pattern.length ≤ s0) :
    occList pattern text s0 = [] := by
  refine List.filter_eq_nil_iff.mpr fun s hs => ?_
  have := List.mem_range.mp hs
  simp only [decide_eq_true_eq, not_and]
  intro hle
  omega

theorem occList_congr_of_no_occurrence (pattern text : List Nat) (s0 s1 : Nat)
    (hle : s0 ≤ s1)
    (h : ∀ s, s0 ≤ s → s < s1 → ¬ OccursAt pattern text s) :
    occList pattern text s0 = occList pattern text s1 := by
  refine List.filter_congr fun s hs => ?_
  refine decide_eq_decide.mpr ?_
  constructor
  · rintro ⟨h0, hocc⟩
    refine ⟨?_, hocc⟩
    by_contra hcon
    exact h s h0 (by omega) hocc
  · rintro ⟨h1, hocc⟩
    exact ⟨by omega, hocc⟩

theorem filter_range_lb_cons (K s0 : Nat) (P : Nat → Prop) [DecidablePred P]
    (hlt : s0 < K) (hP : P s0) :
    (List.range K).filter (fun x => decide (s0 ≤ x ∧ P x)) =
      s0 :: (List.range K).filter (fun x => decide (s0 + 1 ≤ x ∧ P x)) := by
  induction K with
  | zero => omega
  | succ K ih =>
    rw [List.range_succ, List.filter_append, List.filter_append]
    rcases Nat.lt_or_ge s0 K with hK | hK
    · rw [ih hK]
      have : ∀ Q : Nat → Prop, ∀ inst : DecidablePred Q,
          List.filter (fun x => decide (Q x)) [K] =
            if Q K then [K] else [] := by
        intro Q inst
        by_cases hQ : Q K <;> simp [List.filter, hQ]
      rw [this (fun x => s0 ≤ x ∧ P x) _, this (fun x => s0 + 1 ≤ x ∧ P x) _]
      have hiff : (s0 ≤ K ∧ P K) ↔ (s0 + 1 ≤ K ∧ P K) := by
        constructor
        · rintro ⟨_, hp⟩; exact ⟨by omega, hp⟩
        · rintro ⟨_, hp⟩; exact ⟨by omega, hp⟩
      by_cases hQK : s0 + 1 ≤ K ∧ P K
      · rw [if_pos (hiff.mpr hQK), if_pos hQK, List.cons_append]
      · rw [if_neg (fun hx => hQK (hiff.mp hx)), if_neg hQK, List.cons_append]
    · have hs0K : s0 = K := by omega
      subst hs0K
      have hnil1 : (List.range s0).filter (fun x => decide (s0 ≤ x ∧ P x)) = [] := by
        refine List.filter_eq_nil_iff.mpr fun x hx => ?_
        have := List.mem_range.mp hx
        simp only [decide_eq_true_eq, not_and]
        intro hle
        omega
      have hnil2 : (List.range s0).filter (fun x => decide (s0 + 1 ≤ x ∧ P x)) = [] := by
        refine List.filter_eq_nil_iff.mpr fun x hx => ?_
        have := List.mem_range.mp hx
        simp only [decide_eq_true_eq, not_and]
        intro hle
        omega
      rw [hnil1, hnil2]
      simp [List.filter, hP]

theorem occList_cons (pattern text : List Nat) (s0 : Nat)
    (hp : pattern ≠ []) (hocc : OccursAt pattern text s0) :
    occList pattern text s0 = s0 :: occList pattern text (s0 + 1) := by
  have hm : 0 < pattern.length := List.length_pos.mpr hp
  have hlt : s0 < text.length + 1 - pattern.length := by
    have := hocc.1
    omega
  exact filter_range_lb_cons _ s0 (OccursAt pattern text) hlt hocc

/-- The find_all scan loop, started at window end `pos` with enough fuel,
returns exactly the occurrences whose start is at least `pos - (m - 1)`, in
ascending order, paired with their end offsets. -/
theorem findAllLoop_eq (pattern text : List Nat) (hm : 2 ≤ pattern.length) :
    ∀ fuel pos, pattern.length - 1 ≤ pos → text.length ≤ fuel + pos →
      findAllLoop pattern text (buildSkipTable pattern) fuel pos =
        (occList pattern text (pos - (pattern.length - 1))).map
          fun s => (s, s + pattern.length) := by
  have hp : pattern ≠ [] := by
    intro h
    rw [h] at hm
    simp at hm
  intro fuel
  induction fuel with
  | zero =>
    intro pos hpos hfuel
    rw [findAllLoop, occList_eq_nil pattern text _ (by omega)]
    rfl
  | succ fuel ih =>
    intro pos hpos hfuel
    rw [findAllLoop]
    by_cases hlt : pos < text.length
    · rw [if_pos hlt]
      by_cases hw : windowMatched pattern text pos = true
      · rw [if_pos hw]
        have hocc := (windowMatched_iff pattern text pos (by omega) hpos hlt).mp hw
        rw [ih (pos + 1) (by omega) (by omega)]
        have h1 : pos + 1 - (pattern.length - 1) = pos - (pattern.length - 1) + 1 := by
          omega
        rw [h1, occList_cons pattern text _ hp hocc]
        rfl
      · rw [if_neg (by simpa using hw)]
        have hskip : 0 < buildSkipTable pattern (text.getD pos 0) :=
          buildSkipTable_pos pattern hp _
        rw [ih (pos + buildSkipTable pattern (text.getD pos 0)) (by omega) (by omega)]
        have h1 : pos + buildSkipTable pattern (text.getD pos 0) - (pattern.length - 1) =
            pos - (pattern.length - 1) + buildSkipTable pattern (text.getD pos 0) := by
          omega
        rw [h1, occList_congr_of_no_occurrence pattern text _ _ (by omega)
          (no_occurrence_skipped pattern text pos hm hpos hlt
            (by simpa using hw))]
    · rw [if_neg hlt]
      rw [occList_eq_nil pattern text _ (by omega)]
      rfl

/-- The find loop returns the first hit the find_all loop would report. -/
theorem findLoop_eq_head (pattern text : List Nat) (skip : Nat → Nat) :
    ∀ fuel pos, findLoop pattern text skip fuel pos =
      ((findAllLoop pattern text skip fuel pos).head?).map Prod.fst := by
  intro fuel
  induction fuel with
  | zero => intro pos; rfl
  | succ fuel ih =>
    intro pos
    rw [findLoop, findAllLoop]
    by_cases hlt : pos < text.length
    · rw [if_pos hlt, if_pos hlt]
      by_cases hw : windowMatched pattern text pos = true
      · rw [if_pos hw, if_pos hw]
        rfl
      · rw [if_neg (by simpa using hw), if_neg (by simpa using hw)]
        exact ih _
    · rw [if_neg hlt, if_neg hlt]
      rfl

theorem findIdx?_eq_head_filter_range (q : Nat → Bool) :
    ∀ l : List Nat, l.findIdx? q =
      ((List.range l.length).filter fun i => q (l.getD i 0)).head? := by
  intro l
  induction l with
  | nil => rfl
  | cons x xs ih =>
    rw [List.findIdx?_cons, List.length_cons, List.range_succ_eq_map]
    by_cases hx : q x = true
    · rw [if_pos hx, List.filter_cons_of_pos]
      · rfl
      · exact hx
    · rw [if_neg (by simpa using hx), List.filter_cons_of_neg]
      swap
      · exact hx
      rw [List.findIdx?_succ, ih, List.filter_map Nat.succ]
      have hcomp : ((fun i => q ((x :: xs).getD i 0)) ∘ Nat.succ) =
          fun i => q (xs.getD i 0) := rfl
      rw [hcomp, List.head?_map]

/-- The embedded find_all agrees with the specification: for a non-empty
pattern it returns exactly the ascending list of occurrence positions. -/
theorem findAll_spec (pattern text : List Nat) (hp : pattern ≠ []) :
    (BMHMatcher.new pattern).findAll text =
      (allOccurrences pattern text).map fun s => (s, s + pattern.length) := by
  have hm : 0 < pattern.length := List.length_pos.mpr hp
  simp only [BMHMatcher.new, BMHMatcher.findAll]
  split_ifs with h0 h1 h2
  · exact absurd h0 (by omega)
  · have hK : text.length + 1 - pattern.length = 0 := by omega
    rw [allOccurrences, hK]
    rfl
  · rw [allOccurrences]
    have hK : text.length + 1 - pattern.length = text.length := by omega
    rw [hK, h2]
    have hcong : ∀ i ∈ List.range text.length,
        (text.getD i 0 == pattern.getD 0 0) = decide (OccursAt pattern text i) := by
      intro i hi
      have hilt := List.mem_range.mp hi
      show decide (text.getD i 0 = pattern.getD 0 0) = decide (OccursAt pattern text i)
      refine decide_eq_decide.mpr ?_
      constructor
      · intro h
        refine ⟨by omega, fun j hj => ?_⟩
        have hj0 : j = 0 := by omega
        subst hj0
        simpa using h
      · intro h
        simpa using h.2 0 (by omega)
    rw [List.filter_congr hcong]
  · rw [findAllLoop_eq pattern text (by omega) (text.length + 1)
      (pattern.length - 1) le_rfl (by omega)]
    rw [Nat.sub_self]
    have : occList pattern text 0 = allOccurrences pattern text := by
      refine List.filter_congr fun s hs => ?_
      refine decide_eq_decide.mpr ?_
      exact ⟨fun h => h.2, fun h => ⟨Nat.zero_le _, h⟩⟩
    rw [this]

theorem head?_map_pair (l : List Nat) :
    (((l.map fun i => (i, i + 1)).head?).map Prod.fst) = l.head? := by
  cases l <;> rfl

/-- The embedded find returns the first hit find_all would report (valid for
any non-empty pattern; for the empty pattern find reports a vacuous hit at 0
while find_all reports nothing). -/
theorem find_spec (pattern text : List Nat) (hp : pattern ≠ []) :
    (BMHMatcher.new pattern).find text =
      ((BMHMatcher.new pattern).findAll text).head?.map Prod.fst := by
  have hm : 0 < pattern.length := List.length_pos.mpr hp
  simp only [BMHMatcher.new, BMHMatcher.find, BMHMatcher.findAll]
  split_ifs with h0 h1 h2
  · exact absurd h0 (by omega)
  · rfl
  · rw [findIdx?_eq_head_filter_range, head?_map_pair]
  · exact findLoop_eq_head pattern text _ _ _

theorem contains_iff_findAll (pattern text : List Nat) (hp : pattern ≠ []) :
    (BMHMatcher.new pattern).contains text = true ↔
      (BMHMatcher.new pattern).findAll text ≠ [] := by
  rw [BMHMatcher.contains, find_spec pattern text hp]
  rw [Option.isSome_map']
  rw [List.head?_isSome]

theorem mem_allOccurrences (pattern text : List Nat) (s : Nat) :
    s ∈ allOccurrences pattern text ↔ OccursAt pattern text s := by
  rw [allOccurrences, List.mem_filter, List.mem_range]
  constructor
  · rintro ⟨_, h⟩
    exact of_decide_eq_true h
  · intro h
    refine ⟨?_, decide_eq_true h⟩
    have := h.1
    have : pattern.length ≤ text.length := by omega
    omega

theorem findAll_pairwise (pattern text : List Nat) :
    ((BMHMatcher.new pattern).findAll text).Pairwise fun a b => a.1 < b.1 := by
  by_cases hp : pattern = []
  · subst hp
    exact List.Pairwise.nil
  · rw [findAll_spec pattern text hp]
    refine List.Pairwise.map _ (fun a b h => h) ?_
    exact ((List.pairwise_lt_range _).filter _)

theorem mem_findAll (pattern text : List Nat) (s e : Nat)
    (h : (s, e) ∈ (BMHMatcher.new pattern).findAll text) :
    e = s + pattern.length ∧ OccursAt pattern text s := by
  by_cases hp : pattern = []
  · subst hp
    cases h
  · rw [findAll_spec pattern text hp] at h
    rcases List.mem_map.mp h with ⟨x, hx, hxe⟩
    have hs : x = s := congrArg Prod.fst hxe
    subst hs
    refine ⟨(congrArg Prod.snd hxe).symm, ?_⟩
    exact (mem_allOccurrences pattern text x).mp hx

/-! ### Log storage (src/model/log_storage.rs, src/model/line_info.rs)

A memory-mapped file is its byte content, a `List Nat`.  Timestamps are
carried through unchanged by every modelled operation and never inspected,
so they are abstracted as `Option Nat`. -/

structure LineInfo where
  offset : Nat
  length : Nat
  file_index : Nat
  timestamp : Option Nat
  deriving DecidableEq, Repr

structure LogStorage where
  mmaps : List (List Nat)
  lines : List LineInfo
  deriving DecidableEq, Repr

/-- Models `LogStorage::empty` (log_storage.rs lines 20-25). -/
def LogStorage.empty : LogStorage :=
  ⟨[], []⟩

/-- Models `LogStorage::len` (log_storage.rs lines 74-76). -/
def LogStorage.len (st : LogStorage) : Nat :=
  st.lines.length

/-- Models `LogStorage::get_line` (log_storage.rs lines 84-90): look up the
line record, look up its mapped file, and slice
`mmap[offset .. offset + length]`.  The slice panics in Rust when it runs
past the end of the mapping; the panic is modelled as `none`. -/
def LogStorage.getLine (st : LogStorage) (idx : Nat) : Option (List Nat) :=
  match st.lines.get? idx with
  | none => none
  | some info =>
    match st.mmaps.get? info.file_index with
    | none => none
    | some mmap =>
      if info.offset + info.length ≤ mmap.length then
        some ((mmap.drop info.offset).take info.length)
      else none

/-- The line-reindexing loop inside `LogStorage::merge` (log_storage.rs
lines 147-160): the lines of the `file_idx`-th input storage are re-emitted
with `file_index` set to `file_idx` — the position of the input storage in
the argument list, not the position of the line's mapped file in the merged
file list. -/
def mergeLines : List LogStorage → Nat → List LineInfo
  | [], _ => []
  | st :: rest, fileIdx =>
    (st.lines.map fun l => { l with file_index := fileIdx }) ++
      mergeLines rest (fileIdx + 1)

/-- Models `LogStorage::merge` (log_storage.rs lines 138-163). -/
def LogStorage.merge (storages : List LogStorage) : LogStorage :=
  if storages.isEmpty then LogStorage.empty
  else
    { mmaps := (storages.map fun s => s.mmaps).flatten
      lines := mergeLines storages 0 }

/-! ### The filter model used by the filtered view
(src/model/filter.rs, lines 149-461)

`Filter` caches the ASCII-lowercased bytes of its text and a matcher over
them; the matcher field is a function of `cached_lower` (set wherever
`cached_lower` is set), embedded as the derived definition
`Filter.matcher`. -/

/-- Models `Filter::to_lower_bytes` (filter.rs lines 190-200): the UTF-8
bytes of the text with ASCII uppercase bytes lowered and all other bytes
unchanged. -/
def toLowerBytes (text : List Char) : List Nat :=
  (strBytes text).map asciiLower

structure Filter where
  text : List Char
  cached_lower : List Nat
  enabled : Bool
  deriving DecidableEq, Repr

/-- Models `Filter::new` (filter.rs lines 164-174). -/
def Filter.new (text : List Char) : Filter :=
  ⟨text, toLowerBytes text, true⟩

/-- Models `Filter::with_enabled` (filter.rs lines 177-187). -/
def Filter.with_enabled (text : List Char) (enabled : Bool) : Filter :=
  ⟨text, toLowerBytes text, enabled⟩

/-- The matcher field kept alongside `cached_lower` (filter.rs lines 167,
180, 221). -/
def Filter.matcher (f : Filter) : BMHMatcher :=
  BMHMatcher.new f.cached_lower

/-- Models `Filter::matches` (filter.rs lines 242-270): a disabled filter or
an empty pattern matches everything; a pattern longer than the line matches
nothing; otherwise the line is ASCII-lowercased and tested with the
matcher. -/
def Filter.matches (f : Filter) (line_bytes : List Nat) : Bool :=
  if !f.enabled || f.cached_lower.isEmpty then true
  else if line_bytes.length < f.cached_lower.length then false
  else if f.cached_lower.length = 0 then true
  else f.matcher.contains (line_bytes.map asciiLower)

structure FilterGroup where
  filters : List Filter
  deriving DecidableEq, Repr

/-- Models `FilterGroup::matches` (filter.rs lines 328-340): an empty group
matches everything, otherwise at least one filter must match. -/
def FilterGroup.matches (g : FilterGroup) (line_bytes : List Nat) : Bool :=
  if g.filters.isEmpty then true
  else g.filters.any fun f => f.matches line_bytes

structure FilterSet where
  groups : List FilterGroup
  deriving DecidableEq, Repr

/-- Models `FilterSet::matches` (filter.rs lines 419-431): an empty set
matches everything, otherwise every group must match. -/
def FilterSet.matches (s : FilterSet) (line_bytes : List Nat) : Bool :=
  if s.groups.isEmpty then true
  else s.groups.all fun g => g.matches line_bytes

/-- The collection loop of `App::update_filtered_logs` (app.rs lines
238-243): iterate the lines with their indices and push every index whose
bytes match the filter set.  The storage iteration `iter_enumerated` is
modelled by the list of the lines' byte strings in index order. -/
def updateFilteredLogsAux (fs : FilterSet) : List (List Nat) → Nat → List Nat
  | [], _ => []
  | line :: rest, idx =>
    if fs.matches line then idx :: updateFilteredLogsAux fs rest (idx + 1)
    else updateFilteredLogsAux fs rest (idx + 1)

/-- Models `App::update_filtered_logs` (app.rs lines 221-250) restricted to
its observable output, the recomputed `filtered_indices` (the viewport
cache and selection resets it also performs have no bearing on the claims
below). -/
def updateFilteredLogs (lineList : List (List Nat)) (fs : FilterSet) : List Nat :=
  updateFilteredLogsAux fs lineList 0

/-! ### The include/exclude rule model (src/model/filter.rs, lines 463-615)

`FilterRule` stores its pattern and a matcher built once in
`FilterRule::new` from `pattern.to_lowercase().into_bytes()` — the full
Unicode lowercasing of the pattern, not the ASCII-only lowering used for
haystacks.  `new` is the only constructor, so the matcher is embedded as
the derived definition `FilterRule.matcher`. -/

inductive FilterKind where
  | Include
  | Exclude
  deriving DecidableEq, Repr

structure FilterRule where
  pattern : List Char
  kind : FilterKind
  deriving DecidableEq, Repr

/-- Models `FilterRule::new` (filter.rs lines 480-489). -/
def FilterRule.new (pattern : List Char) (kind : FilterKind) : FilterRule :=
  ⟨pattern, kind⟩

/-- The matcher built by `FilterRule::new` (filter.rs lines 482-483):
`BMHMatcher::new(pattern.to_lowercase().into_bytes())`. -/
def FilterRule.matcher (r : FilterRule) : BMHMatcher :=
  BMHMatcher.new (strBytes (rustToLowercase r.pattern))

/-- Models `FilterRule::matches` (filter.rs lines 501-514): the text is
ASCII-lowercased into the scratch buffer and tested with the matcher. -/
def FilterRule.matches (r : FilterRule) (text : List Nat) : Bool :=
  r.matcher.contains (text.map asciiLower)

structure FilterList where
  includes : List FilterRule
  excludes : List FilterRule
  deriving DecidableEq, Repr

/-- Models `FilterList::new` (filter.rs lines 532-537). -/
def FilterList.new : FilterList :=
  ⟨[], []⟩

/-- Models `FilterList::add_include` (filter.rs lines 539-542). -/
def FilterList.add_include (fl : FilterList) (pattern : List Char) : FilterList :=
  { fl with includes := fl.includes ++ [FilterRule.new pattern FilterKind.Include] }

/-- Models `FilterList::add_exclude` (filter.rs lines 544-547). -/
def FilterList.add_exclude (fl : FilterList) (pattern : List Char) : FilterList :=
  { fl with excludes := fl.excludes ++ [FilterRule.new pattern FilterKind.Exclude] }

/-- Models `FilterList::matches` (filter.rs lines 598-614): false as soon as
some include fails to match or some exclude matches, true otherwise. -/
def FilterList.matches (fl : FilterList) (text : List Nat) : Bool :=
  (fl.includes.all fun r => r.matches text) &&
    !(fl.excludes.any fun r => r.matches text)

/-! ### The search session (src/app.rs)

Only the state that the modelled operations read or write is carried:
`storage`, `filtered_indices`, `search_state` and `selected_line`.  The
UI-only fields (modes, buffers, viewport cells, caches of rendering data)
and the vertical/horizontal scroll bookkeeping of `jump_to_match` are not
modelled; the horizontal adjustment, the subject of its own claim, is
embedded separately as `adjustHorizontalScroll`.  The LRU match cache is
modelled as an association list — only lookup and emptiness are relevant to
the claims, not the eviction order. -/

structure MatchPosition where
  filtered_idx : Nat
  byte_offset : Nat
  match_len : Nat
  deriving DecidableEq, Repr

structure SearchState where
  query : List Char
  matcher : BMHMatcher
  current_idx : Nat
  current_position : Option MatchPosition
  total_matches : Nat
  match_cache : List (Nat × List (Nat × Nat))
  deriving DecidableEq, Repr

structure App where
  storage : Option LogStorage
  filtered_indices : List Nat
  search_state : Option SearchState
  selected_line : Nat
  deriving DecidableEq, Repr

/-- The matcher built by `App::init_search_state` (app.rs lines 781-783):
`BMHMatcher::new(query.to_lowercase().bytes())`. -/
def searchMatcher (query : List Char) : BMHMatcher :=
  BMHMatcher.new (strBytes (rustToLowercase query))

/-- Models `App::total_matches` (app.rs lines 908-913). -/
def App.totalMatches (app : App) : Nat :=
  match app.search_state with
  | some st => st.total_matches
  | none => 0

/-- The inner loop of `App::get_match_position` (app.rs lines 1034-1043):
walk one line's matches, returning the match whose running count equals the
target or the advanced count. -/
def matchPositionScan (fidx : Nat) :
    List (Nat × Nat) → Nat → Nat → MatchPosition ⊕ Nat
  | [], current, _ => Sum.inr current
  | (s, e) :: rest, current, target =>
    if current = target then Sum.inl ⟨fidx, s, e - s⟩
    else matchPositionScan fidx rest (current + 1) target

/-- The outer loop of `App::get_match_position` (app.rs lines 1025-1044):
walk the filtered view; `storage.get_line(line_idx)?` aborts the whole
lookup with `none`.  Each line is ASCII-lowercased before matching (lines
1027-1031). -/
def matchPositionLoop (matcher : BMHMatcher) (storage : LogStorage) :
    List Nat → Nat → Nat → Nat → Option MatchPosition
  | [], _, _, _ => none
  | lineIdx :: rest, fidx, current, target =>
    match storage.getLine lineIdx with
    | none => none
    | some line =>
      match matchPositionScan fidx (matcher.findAll (line.map asciiLower))
          current target with
      | Sum.inl pos => some pos
      | Sum.inr current2 => matchPositionLoop matcher storage rest (fidx + 1) current2 target

/-- Models `App::get_match_position` (app.rs lines 1019-1047). -/
def App.getMatchPosition (app : App) (matchIdx : Nat) : Option MatchPosition :=
  match app.search_state, app.storage with
  | some st, some storage =>
    matchPositionLoop st.matcher storage app.filtered_indices 0 0 matchIdx
  | _, _ => none

/-- Models `App::jump_to_match` (app.rs lines 961-1016) on the carried
state: guard against a missing session, an empty match set and an
out-of-range index; set the current ordinal; resolve the position and, when
that succeeds, cache it and select its line. -/
def App.jumpToMatch (app : App) (matchIdx : Nat) : App :=
  match app.search_state with
  | none => app
  | some st =>
    if st.total_matches = 0 ∨ st.total_matches ≤ matchIdx then app
    else
      let app1 := { app with search_state := some { st with current_idx := matchIdx } }
      match app1.getMatchPosition matchIdx with
      | some pos =>
        { app1 with
          search_state := some { st with current_idx := matchIdx,
                                         current_position := some pos },
          selected_line := pos.filtered_idx }
      | none => app1

/-- Models `App::next_match` (app.rs lines 925-938). -/
def App.nextMatch (app : App) : App :=
  if app.totalMatches = 0 then app
  else
    let nextIdx :=
      match app.search_state with
      | some st => (st.current_idx + 1) % app.totalMatches
      | none => 0
    app.jumpToMatch nextIdx

/-- Models `App::prev_match` (app.rs lines 941-958). -/
def App.prevMatch (app : App) : App :=
  if app.totalMatches = 0 then app
  else
    let prevIdx :=
      match app.search_state with
      | some st => if st.current_idx = 0 then app.totalMatches - 1 else st.current_idx - 1
      | none => 0
    app.jumpToMatch prevIdx

/-- Models `App::get_line_matches` (app.rs lines 868-904) restricted to its
return value (on a cache miss the code also inserts the computed spans into
the cache; the claims below concern the returned spans). -/
def App.getLineMatches (app : App) (filteredIdx : Nat) : List (Nat × Nat) :=
  match app.search_state with
  | none => []
  | some st =>
    match st.match_cache.lookup filteredIdx with
    | some ms => ms
    | none =>
      match app.storage with
      | none => []
      | some storage =>
        match app.filtered_indices.get? filteredIdx with
        | none => []
        | some lineIdx =>
          match storage.getLine lineIdx with
          | none => []
          | some line => st.matcher.findAll (line.map asciiLower)

/-- Models the horizontal visibility adjustment of `App::jump_to_match`
(app.rs lines 1001-1014), taking the match's start and length in character
units as the code has computed them by then: with a margin of 10, a match
left of the scroll pulls the scroll to `match_start - margin` (saturating),
a match beyond `scroll + width - margin` pushes the scroll to
`match_end + margin - width` (saturating), anything else leaves it. -/
def adjustHorizontalScroll (matchCharPos matchCharLen horizontalScroll viewportWidth : Nat) : Nat :=
  let margin := 10
  if matchCharPos < horizontalScroll then
    matchCharPos - margin
  else if horizontalScroll + (viewportWidth - margin) < matchCharPos + matchCharLen then
    matchCharPos + matchCharLen + margin - viewportWidth
  else horizontalScroll

/-- The specification's enumeration of all matches: scan the filtered view
from the start and list, for each line, its occurrences by ascending byte
offset (the running index `fidx` is the filtered-view position of the
line).  Missing lines contribute the matches of the empty byte string. -/
def matchEnumFrom (matcher : BMHMatcher) (storage : LogStorage) (fidx : Nat) :
    List Nat → List MatchPosition
  | [] => []
  | lineIdx :: rest =>
    ((allOccurrences matcher.pattern (((storage.getLine lineIdx).getD []).map asciiLower)).map
        fun s => MatchPosition.mk fidx s matcher.pattern.length) ++
      matchEnumFrom matcher storage (fidx + 1) rest

/-- The full match enumeration of a session, in scan order. -/
def matchEnum (matcher : BMHMatcher) (storage : LogStorage) (filtered : List Nat) :
    List MatchPosition :=
  matchEnumFrom matcher storage 0 filtered

/-! ### Correctness of the match-position scan -/

theorem matchPositionScan_eq (fidx : Nat) :
    ∀ (ms : List (Nat × Nat)) (current target : Nat), current ≤ target →
      matchPositionScan fidx ms current target =
        match ms.get? (target - current) with
        | some (s, e) => Sum.inl ⟨fidx, s, e - s⟩
        | none => Sum.inr (current + ms.length) := by
  intro ms
  induction ms with
  | nil =>
    intro current target hct
    rfl
  | cons x rest ih =>
    intro current target hct
    obtain ⟨s, e⟩ := x
    rw [matchPositionScan]
    by_cases hc : current = target
    · rw [if_pos hc]
      have : target - current = 0 := by omega
      rw [this]
      rfl
    · rw [if_neg hc]
      rw [ih (current + 1) target (by omega)]
      have h1 : target - current = target - (current + 1) + 1 := by omega
      rw [h1]
      have h2 : current + (rest.length + 1) = current + 1 + rest.length := by omega
      rw [List.length_cons, h2]
      rfl

theorem matchPositionLoop_eq (matcher : BMHMatcher) (storage : LogStorage)
    (hp : matcher.pattern ≠ []) :
    ∀ (fl : List Nat) (fidx current target : Nat),
      (∀ l ∈ fl, (storage.getLine l).isSome = true) → current ≤ target →
      matchPositionLoop matcher storage fl fidx current target =
        (matchEnumFrom matcher storage fidx fl).get? (target - current) := by
  intro fl
  induction fl with
  | nil =>
    intro fidx current target hv hct
    rfl
  | cons lineIdx rest ih =>
    intro fidx current target hv hct
    obtain ⟨line, hline⟩ := Option.isSome_iff_exists.mp
      (hv lineIdx (List.mem_cons_self _ _))
    rw [matchPositionLoop, matchEnumFrom]
    simp only [hline, Option.getD_some]
    have hmt : BMHMatcher.new matcher.pattern = matcher := rfl
    have hfa : matcher.findAll (line.map asciiLower) =
        (allOccurrences matcher.pattern (line.map asciiLower)).map
          fun s => (s, s + matcher.pattern.length) := by
      rw [← hmt]
      exact findAll_spec matcher.pattern (line.map asciiLower) hp
    rw [matchPositionScan_eq fidx _ current target hct, hfa]
    set occs := allOccurrences matcher.pattern (line.map asciiLower) with hoccs
    set k := target - current with hk
    rcases Nat.lt_or_ge k occs.length with hlt | hge
    · rw [List.get?_map]
      obtain ⟨s, hs⟩ := Option.isSome_iff_exists.mp
        (by rw [List.get?_eq_get hlt]; rfl : (occs.get? k).isSome = true)
      rw [hs]
      simp only [Option.map_some']
      rw [List.get?_append (by simpa using hlt)]
      rw [List.get?_map, hs]
      simp only [Option.map_some']
      have : s + matcher.pattern.length - s = matcher.pattern.length := by omega
      rw [this]
    · have hnone : (occs.map fun s => (s, s + matcher.pattern.length)).get? k = none := by
        rw [List.get?_eq_none]
        simpa using hge
      rw [hnone]
      have hlen : (occs.map fun s => (s, s + matcher.pattern.length)).length = occs.length := by
        simp
      rw [hlen]
      dsimp only
      rw [ih (fidx + 1) (current + occs.length) target
        (fun l hl => hv l (List.mem_cons_of_mem _ hl)) (by omega)]
      rw [List.get?_append_right (by simpa using hge)]
      congr 1
      simp only [List.length_map]
      omega

theorem getMatchPosition_eq (app : App) (st : SearchState) (storage : LogStorage)
    (hst : app.search_state = some st) (hstor : app.storage = some storage)
    (hp : st.matcher.pattern ≠ [])
    (hv : ∀ l ∈ app.filtered_indices, (storage.getLine l).isSome = true)
    (target : Nat) :
    app.getMatchPosition target =
      (matchEnum st.matcher storage app.filtered_indices).get? target := by
  simp only [App.getMatchPosition, hst, hstor]
  rw [matchPositionLoop_eq st.matcher storage hp app.filtered_indices 0 0 target hv
    (Nat.zero_le _)]
  rfl

/-! ### Correctness of the filtered-view recomputation -/

theorem updateFilteredLogsAux_eq (fs : FilterSet) :
    ∀ (l : List (List Nat)) (k : Nat),
      updateFilteredLogsAux fs l k =
        ((List.range l.length).filter fun i => fs.matches (l.getD i [])).map
          fun i => i + k := by
  intro l
  induction l with
  | nil =>
    intro k
    rfl
  | cons x rest ih =>
    intro k
    rw [updateFilteredLogsAux, List.length_cons, List.range_succ_eq_map]
    have hcomp : ((fun i => fs.matches ((x :: rest).getD i [])) ∘ Nat.succ) =
        fun i => fs.matches (rest.getD i []) := rfl
    have hadd : ((fun i => i + k) ∘ Nat.succ) = fun i => i + (k + 1) :=
      funext fun i => by
        show i + 1 + k = i + (k + 1)
        omega
    by_cases hm : fs.matches x = true
    · rw [if_pos hm, List.filter_cons_of_pos]
      swap
      · exact hm
      rw [List.map_cons, List.filter_map Nat.succ, hcomp, List.map_map, hadd,
        ih (k + 1), Nat.zero_add]
    · rw [if_neg hm, List.filter_cons_of_neg]
      swap
      · exact hm
      rw [List.filter_map Nat.succ, hcomp, List.map_map, hadd, ih (k + 1)]

theorem updateFilteredLogs_eq (lineList : List (List Nat)) (fs : FilterSet) :
    updateFilteredLogs lineList fs =
      (List.range lineList.length).filter fun i => fs.matches (lineList.getD i []) := by
  rw [updateFilteredLogs, updateFilteredLogsAux_eq fs lineList 0]
  have : (fun i => i + 0) = fun i : Nat => i := funext fun i => by omega
  rw [this, List.map_id']

/-! ### The claims -/

/-- Claim C1.  `LogStorage::merge` is claimed to rewrite every line's
`file_id` to the position its owning mapped file occupies in the merged
store's file list, for every input sequence including stores that hold more
than one mapped file.  The code instead sets `file_id` to the position of
the line's input STORE in the argument list.  Evaluated at the failing
input: merging a two-file store (itself a merge of two single-file stores
with contents `[65]` and `[66, 66]`) with a one-file store (content
`[67]`), the merged file list is `[[65], [66, 66], [67]]` but the line
file ids come out `[0, 0, 1]` instead of the required `[0, 1, 2]`.  As a
result line 1 points into the one-byte file `[65]` with length 2 — an
out-of-bounds slice, a panic in Rust, `none` here — and line 2 reads
`[66]` from the wrong file instead of its true content `[67]`.  The empty
merge does yield the empty store, as claimed. -/
theorem merge_file_id_renumbering_bug :
    LogStorage.merge [] = LogStorage.empty
    ∧ (LogStorage.merge
        [LogStorage.merge
          [LogStorage.mk [[65]] [LineInfo.mk 0 1 0 none],
           LogStorage.mk [[66, 66]] [LineInfo.mk 0 2 0 none]],
         LogStorage.mk [[67]] [LineInfo.mk 0 1 0 none]]).mmaps =
        [[65], [66, 66], [67]]
    ∧ ((LogStorage.merge
        [LogStorage.merge
          [LogStorage.mk [[65]] [LineInfo.mk 0 1 0 none],
           LogStorage.mk [[66, 66]] [LineInfo.mk 0 2 0 none]],
         LogStorage.mk [[67]] [LineInfo.mk 0 1 0 none]]).lines.map
        fun l => l.file_index) = [0, 0, 1]
    ∧ (LogStorage.merge
        [LogStorage.merge
          [LogStorage.mk [[65]] [LineInfo.mk 0 1 0 none],
           LogStorage.mk [[66, 66]] [LineInfo.mk 0 2 0 none]],
         LogStorage.mk [[67]] [LineInfo.mk 0 1 0 none]]).len = 3
    ∧ (LogStorage.merge
        [LogStorage.merge
          [LogStorage.mk [[65]] [LineInfo.mk 0 1 0 none],
           LogStorage.mk [[66, 66]] [LineInfo.mk 0 2 0 none]],
         LogStorage.mk [[67]] [LineInfo.mk 0 1 0 none]]).getLine 1 = none
    ∧ (LogStorage.merge
        [LogStorage.merge
          [LogStorage.mk [[65]] [LineInfo.mk 0 1 0 none],
           LogStorage.mk [[66, 66]] [LineInfo.mk 0 2 0 none]],
         LogStorage.mk [[67]] [LineInfo.mk 0 1 0 none]]).getLine 2 = some [66]
    ∧ (LogStorage.mk [[67]] [LineInfo.mk 0 1 0 none]).getLine 0 = some [67] := by
  decide

/-- Claim C2, counterexample.  The claim says `contains` is true exactly
when `find_all` is non-empty, and in particular false for the empty
pattern.  For the empty pattern the code's `find` returns a hit at 0, so
`contains` is true, while `find_all` returns no matches. -/
theorem empty_pattern_contains_findAll_mismatch :
    (BMHMatcher.new []).contains [104, 101, 108, 108, 111] = true
    ∧ (BMHMatcher.new []).findAll [104, 101, 108, 108, 111] = [] := by
  decide

/-- Claim C2, amended.  For every NON-EMPTY pattern and every haystack,
`contains` returns true exactly when `find_all` returns a non-empty list —
in particular a pattern longer than the haystack gives `contains = false`.
For the empty pattern the two disagree: `find_all` returns no matches but
`contains` returns true, because `find` reports a vacuous hit at 0. -/
theorem contains_agrees_with_findAll :
    (∀ pattern text : List Nat, pattern ≠ [] →
      ((BMHMatcher.new pattern).contains text = true ↔
        (BMHMatcher.new pattern).findAll text ≠ []))
    ∧ (∀ pattern text : List Nat, pattern ≠ [] → text.length < pattern.length →
        (BMHMatcher.new pattern).contains text = false)
    ∧ (∀ text : List Nat,
        (BMHMatcher.new []).contains text = true
        ∧ (BMHMatcher.new []).findAll text = []) := by
  refine ⟨?_, ?_, ?_⟩
  · intro pattern text hp
    exact contains_iff_findAll pattern text hp
  · intro pattern text hp hlen
    simp only [BMHMatcher.contains, BMHMatcher.new, BMHMatcher.find]
    split_ifs with h0
    · exact absurd h0 (fun h => hp (List.length_eq_zero.mp h))
    · rfl
  · intro text
    constructor
    · rfl
    · rfl

/-- Witness for the amended claim C2 at a concrete input. -/
theorem contains_agrees_with_findAll_witness :
    (BMHMatcher.new [97, 98]).contains [120, 97, 98] = true ↔
      (BMHMatcher.new [97, 98]).findAll [120, 97, 98] ≠ [] :=
  contains_agrees_with_findAll.1 [97, 98] [120, 97, 98] (by decide)

/-- Claim C3.  The claim (and the spec) say the matcher of a filter rule
and of a search query is built from the ASCII-lowercased bytes of the
pattern text, never folding non-ASCII letters.  The code instead calls
Rust's full Unicode `to_lowercase()`.  Evaluated at the failing input, the
single character `'Ë'` (UTF-8 `[0xC3, 0x8B]`): both the rule matcher built
by `FilterRule::new` and the search matcher built by `init_search_state`
hold the bytes `[0xC3, 0xAB]` (the UTF-8 of `'ë'`), not the ASCII-lowered
bytes `[0xC3, 0x8B]` the claim requires.  Because haystacks ARE
ASCII-lowered only, the rule then fails to match the very text it was
created from. -/
theorem search_pattern_unicode_lowercased :
    (FilterRule.new ['Ë'] FilterKind.Include).matcher.pattern = [0xC3, 0xAB]
    ∧ (searchMatcher ['Ë']).pattern = [0xC3, 0xAB]
    ∧ (strBytes ['Ë']).map asciiLower = [0xC3, 0x8B]
    ∧ (FilterRule.new ['Ë'] FilterKind.Include).matcher.pattern ≠
        (strBytes ['Ë']).map asciiLower
    ∧ (FilterRule.new ['Ë'] FilterKind.Include).matches (strBytes ['Ë']) = false := by
  decide

/-- Claim C4.  For every non-empty pattern, `find_all` returns exactly the
occurrences of the pattern in the haystack — each reported as
`(start, start + pattern_len)` — in ascending start order, overlaps
included; and the two concrete examples of the claim hold. -/
theorem findAll_enumerates_occurrences :
    (∀ pattern text : List Nat, pattern ≠ [] →
      (BMHMatcher.new pattern).findAll text =
        (allOccurrences pattern text).map (fun s => (s, s + pattern.length))
      ∧ (∀ s, s ∈ allOccurrences pattern text ↔ OccursAt pattern text s)
      ∧ ((BMHMatcher.new pattern).findAll text).Pairwise fun a b => a.1 < b.1)
    ∧ (BMHMatcher.new [97, 97]).findAll [97, 97, 97, 97] = [(0, 2), (1, 3), (2, 4)]
    ∧ (BMHMatcher.new [97, 98]).findAll [97, 98, 99, 32, 97, 98, 32, 97, 98] =
        [(0, 2), (4, 6), (7, 9)] := by
  refine ⟨?_, by decide, by decide⟩
  intro pattern text hp
  exact ⟨findAll_spec pattern text hp,
    fun s => mem_allOccurrences pattern text s,
    findAll_pairwise pattern text⟩

/-- Witness for claim C4 at the pattern aa against the haystack aaaa. -/
theorem findAll_enumerates_occurrences_witness :
    (BMHMatcher.new [97, 97]).findAll [97, 97, 97, 97] =
      (allOccurrences [97, 97] [97, 97, 97, 97]).map
        (fun s => (s, s + ([97, 97] : List Nat).length)) :=
  (findAll_enumerates_occurrences.1 [97, 97] [97, 97, 97, 97] (by decide)).1

/-- Claim C5.  The matcher reports no false positives: every hit of
`find_all` is a window byte-for-byte equal to the pattern (and spans
exactly the pattern's length), every hit of `find` starts a true
occurrence, and in particular the pattern jeb (`[106, 101, 98]`) does not
match the haystack 0EB (`[48, 69, 66]`). -/
theorem matcher_no_false_positives :
    (∀ (pattern text : List Nat) (s e : Nat),
      (s, e) ∈ (BMHMatcher.new pattern).findAll text →
        e = s + pattern.length ∧ OccursAt pattern text s)
    ∧ (∀ (pattern text : List Nat) (s : Nat),
        (BMHMatcher.new pattern).find text = some s → OccursAt pattern text s)
    ∧ (BMHMatcher.new [106, 101, 98]).find [48, 69, 66] = none
    ∧ (BMHMatcher.new [106, 101, 98]).contains [48, 69, 66] = false := by
  refine ⟨fun pattern text s e h => mem_findAll pattern text s e h, ?_, by decide, by decide⟩
  intro pattern text s h
  by_cases hp : pattern = []
  · subst hp
    have h0 : (some 0 : Option Nat) = some s := h
    have hs : s = 0 := (Option.some_inj.mp h0).symm
    subst hs
    exact ⟨by simp, fun i hi => by simp at hi⟩
  · rw [find_spec pattern text hp] at h
    rcases Option.map_eq_some'.mp h with ⟨pair, hpair, hfst⟩
    have hmem := List.mem_of_mem_head? hpair
    obtain ⟨s', e'⟩ := pair
    have := mem_findAll pattern text s' e' hmem
    have hs : s' = s := hfst
    subst hs
    exact this.2

/-- Witness for claim C5 at the pattern ab against the haystack ab. -/
theorem matcher_no_false_positives_witness :
    2 = 0 + ([97, 98] : List Nat).length ∧ OccursAt [97, 98] [97, 98] 0 :=
  matcher_no_false_positives.1 [97, 98] [97, 98] 0 2 (by decide)

/-- Claim C6.  `FilterList::matches` holds exactly when every include rule
matches and no exclude rule matches (each rule testing the ASCII-lowered
bytes with its own matcher), and the empty list matches every input,
including the empty byte string. -/
theorem filter_list_and_not_semantics :
    (∀ (fl : FilterList) (text : List Nat),
      fl.matches text = true ↔
        (∀ r ∈ fl.includes, r.matches text = true)
        ∧ ∀ r ∈ fl.excludes, r.matches text = false)
    ∧ (∀ (fl : FilterList) (text : List Nat),
        fl.includes = [] → fl.excludes = [] → fl.matches text = true) := by
  constructor
  · intro fl text
    simp [FilterList.matches, List.all_eq_true, List.any_eq_true]
  · intro fl text h1 h2
    simp [FilterList.matches, h1, h2]

/-- Witness for claim C6 at the spec's example: includes error and
warning, exclude debug, tested on WARNING: then ERROR occurred. -/
theorem filter_list_and_not_semantics_witness :
    (((FilterList.new.add_include ['e', 'r', 'r', 'o', 'r']).add_include
        ['w', 'a', 'r', 'n', 'i', 'n', 'g']).add_exclude
        ['d', 'e', 'b', 'u', 'g']).matches
        (strBytes ['W', 'A', 'R', 'N', 'I', 'N', 'G', ':', ' ', 't', 'h', 'e',
          'n', ' ', 'E', 'R', 'R', 'O', 'R', ' ', 'o', 'c', 'c', 'u', 'r',
          'r', 'e', 'd']) = true :=
  (filter_list_and_not_semantics.1 _ _).mpr ⟨by decide, by decide⟩

theorem jumpToMatch_search_state (app : App) (st : SearchState) (storage : LogStorage)
    (hst : app.search_state = some st) (hstor : app.storage = some storage)
    (hp : st.matcher.pattern ≠ [])
    (hv : ∀ l ∈ app.filtered_indices, (storage.getLine l).isSome = true)
    (htot : st.total_matches = (matchEnum st.matcher storage app.filtered_indices).length)
    (idx : Nat) (hidx : idx < st.total_matches) :
    (app.jumpToMatch idx).search_state = some
      { st with current_idx := idx,
                current_position :=
                  (matchEnum st.matcher storage app.filtered_indices).get? idx } := by
  have hguard : ¬ (st.total_matches = 0 ∨ st.total_matches ≤ idx) := by omega
  simp only [App.jumpToMatch, hst]
  rw [if_neg hguard]
  have hgmp : ({ app with search_state := some { st with current_idx := idx } } : App).getMatchPosition idx =
      (matchEnum st.matcher storage app.filtered_indices).get? idx :=
    getMatchPosition_eq { app with search_state := some { st with current_idx := idx } }
      { st with current_idx := idx } storage rfl hstor hp hv idx
  have hlt : idx < (matchEnum st.matcher storage app.filtered_indices).length := by omega
  obtain ⟨pos, hpos⟩ : ∃ pos,
      (matchEnum st.matcher storage app.filtered_indices).get? idx = some pos := by
    rw [List.get?_eq_get hlt]
    exact ⟨_, rfl⟩
  rw [hpos, hgmp, hpos]

/-- Claim C7.  With an active session whose `total_matches` agrees with the
scan-order enumeration of all matches of the filtered view, `next_match`
sets the current ordinal to `(c + 1) % T` and `prev_match` to
`(c + T - 1) % T` (wrapping at both ends), and the new current Match
Position is the ordinal-th entry of the enumeration obtained by scanning
the Filtered View from the start, listing each line's matches by ascending
byte offset; with `T = 0` both navigations change nothing. -/
theorem match_navigation_wraps_and_resolves
    (app : App) (st : SearchState) (storage : LogStorage)
    (hst : app.search_state = some st) (hstor : app.storage = some storage)
    (hp : st.matcher.pattern ≠ [])
    (hv : ∀ l ∈ app.filtered_indices, (storage.getLine l).isSome = true)
    (htot : st.total_matches = (matchEnum st.matcher storage app.filtered_indices).length) :
    (st.total_matches = 0 → app.nextMatch = app ∧ app.prevMatch = app)
    ∧ (0 < st.total_matches →
        app.nextMatch.search_state = some
          { st with
              current_idx := (st.current_idx + 1) % st.total_matches,
              current_position :=
                (matchEnum st.matcher storage app.filtered_indices).get?
                  ((st.current_idx + 1) % st.total_matches) })
    ∧ (0 < st.total_matches → st.current_idx < st.total_matches →
        app.prevMatch.search_state = some
          { st with
              current_idx := (st.current_idx + st.total_matches - 1) % st.total_matches,
              current_position :=
                (matchEnum st.matcher storage app.filtered_indices).get?
                  ((st.current_idx + st.total_matches - 1) % st.total_matches) }) := by
  have hT : app.totalMatches = st.total_matches := by
    simp [App.totalMatches, hst]
  refine ⟨?_, ?_, ?_⟩
  · intro h0
    constructor
    · simp [App.nextMatch, hT, h0]
    · simp [App.prevMatch, hT, h0]
  · intro hpos
    have hne : ¬ app.totalMatches = 0 := by omega
    simp only [App.nextMatch, hst]
    rw [if_neg hne, hT]
    exact jumpToMatch_search_state app st storage hst hstor hp hv htot _
      (Nat.mod_lt _ hpos)
  · intro hpos hc
    have hne : ¬ app.totalMatches = 0 := by omega
    simp only [App.prevMatch, hst]
    rw [if_neg hne, hT]
    have heq : (if st.current_idx = 0 then st.total_matches - 1 else st.current_idx - 1) =
        (st.current_idx + st.total_matches - 1) % st.total_matches := by
      by_cases h0 : st.current_idx = 0
      · rw [if_pos h0, h0, Nat.zero_add, Nat.mod_eq_of_lt (by omega)]
      · rw [if_neg h0]
        have h1 : st.current_idx + st.total_matches - 1 =
            st.current_idx - 1 + st.total_matches := by omega
        rw [h1, Nat.add_mod_right, Nat.mod_eq_of_lt (by omega)]
    rw [heq]
    exact jumpToMatch_search_state app st storage hst hstor hp hv htot _
      (Nat.mod_lt _ (by omega))

/-- Witness for claim C7: one line test, filtered view `[0]`, query t,
two matches; `next_match` from ordinal 0 moves to ordinal `(0 + 1) % 2`
and resolves it against the enumeration. -/
theorem match_navigation_wraps_and_resolves_witness :
    (App.mk (some (LogStorage.mk [[116, 101, 115, 116]] [LineInfo.mk 0 4 0 none]))
        [0] (some (SearchState.mk [] (BMHMatcher.new [116]) 0 none 2 [])) 0).nextMatch.search_state =
      some (SearchState.mk [] (BMHMatcher.new [116]) ((0 + 1) % 2)
        ((matchEnum (BMHMatcher.new [116])
            (LogStorage.mk [[116, 101, 115, 116]] [LineInfo.mk 0 4 0 none]) [0]).get?
          ((0 + 1) % 2)) 2 []) :=
  (match_navigation_wraps_and_resolves
    (App.mk (some (LogStorage.mk [[116, 101, 115, 116]] [LineInfo.mk 0 4 0 none]))
      [0] (some (SearchState.mk [] (BMHMatcher.new [116]) 0 none 2 [])) 0)
    (SearchState.mk [] (BMHMatcher.new [116]) 0 none 2 [])
    (LogStorage.mk [[116, 101, 115, 116]] [LineInfo.mk 0 4 0 none])
    rfl rfl (by decide) (by decide) (by decide)).2.1 (by decide)

/-- Claim C8.  The horizontal visibility adjustment, for a match with
character start `s` and end `e` (`s < e`, as every match spans at least one
character), current scroll `h`, viewport width `w` and the fixed margin 10:
if `s < h` the scroll becomes `max 0 (s - 10)`; otherwise if
`e > h + w - 10` (in integers) it becomes `max 0 (e + 10 - w)`; otherwise
it is unchanged.  `Int.toNat` is exactly the `max 0` of the claim. -/
theorem horizontal_scroll_adjustment_spec (s e h w : Nat) (hse : s < e) :
    adjustHorizontalScroll s (e - s) h w =
      if s < h then ((s : Int) - 10).toNat
      else if (h : Int) + (w : Int) - 10 < (e : Int) then ((e : Int) + 10 - (w : Int)).toNat
      else h := by
  simp only [adjustHorizontalScroll]
  split_ifs <;> omega

/-- Witness for claim C8 at `s = 15`, `e = 18`, `h = 20`, `w = 80`: the
match starts left of the scroll, so the scroll becomes `15 - 10 = 5`. -/
theorem horizontal_scroll_adjustment_spec_witness :
    adjustHorizontalScroll 15 (18 - 15) 20 80 =
      if 15 < 20 then ((15 : Int) - 10).toNat
      else if (20 : Int) + (80 : Int) - 10 < (18 : Int) then ((18 : Int) + 10 - (80 : Int)).toNat
      else 20 :=
  horizontal_scroll_adjustment_spec 15 18 20 80 (by decide)

/-- Claim C9.  Line lookup is total over invalid input: `get_line` returns
`none` for every out-of-range index, and `get_line_matches` returns the
empty span list for every filtered-view index past the end of the Filtered
View (provided the bounded cache holds no stale entry for that index, which
the application maintains by clearing the session on every filter change). -/
theorem line_lookup_total :
    (∀ (st : LogStorage) (idx : Nat), st.lines.length ≤ idx → st.getLine idx = none)
    ∧ (∀ (app : App) (fidx : Nat), app.filtered_indices.length ≤ fidx →
        (∀ st, app.search_state = some st → st.match_cache.lookup fidx = none) →
        app.getLineMatches fidx = []) := by
  constructor
  · intro st idx hidx
    rw [LogStorage.getLine]
    have hnone : st.lines.get? idx = none := List.get?_eq_none.mpr hidx
    rw [hnone]
  · intro app fidx hfidx hcache
    rw [App.getLineMatches]
    cases hss : app.search_state with
    | none => rfl
    | some st =>
      dsimp only
      rw [hcache st hss]
      cases hstor : app.storage with
      | none => rfl
      | some storage =>
        dsimp only
        have hnone : app.filtered_indices.get? fidx = none :=
          List.get?_eq_none.mpr hfidx
        rw [hnone]

/-- Witness for claim C9: the empty store and an app with no session. -/
theorem line_lookup_total_witness :
    LogStorage.empty.getLine 5 = none
    ∧ (App.mk none [] none 0).getLineMatches 3 = [] :=
  ⟨line_lookup_total.1 LogStorage.empty 5 (by decide),
   line_lookup_total.2 (App.mk none [] none 0) 3 (by decide)
     (fun st h => by cases h)⟩

/-- Claim C10.  The filtered view is recomputed with the group model, not
the include/exclude rules: a group matches iff it is empty or at least one
of its filters matches, a set matches iff every group matches (so the
empty set matches everything), a disabled filter matches every line, and
the recomputed Filtered View is exactly the ascending list of line indices
whose bytes satisfy the filter set. -/
theorem filter_set_semantics_and_filtered_view :
    (∀ (g : FilterGroup) (l : List Nat),
      g.matches l = true ↔ g.filters = [] ∨ ∃ f ∈ g.filters, f.matches l = true)
    ∧ (∀ (s : FilterSet) (l : List Nat),
        s.matches l = true ↔ ∀ g ∈ s.groups, g.matches l = true)
    ∧ (∀ (f : Filter) (l : List Nat), f.enabled = false → f.matches l = true)
    ∧ (∀ (s : FilterSet) (l : List Nat), s.groups = [] → s.matches l = true)
    ∧ (∀ (lineList : List (List Nat)) (fs : FilterSet),
        updateFilteredLogs lineList fs =
          (List.range lineList.length).filter fun i => fs.matches (lineList.getD i [])) := by
  refine ⟨?_, ?_, ?_, ?_, ?_⟩
  · intro g l
    by_cases hg : g.filters = []
    · simp [FilterGroup.matches, hg]
    · simp [FilterGroup.matches, hg, List.any_eq_true, List.isEmpty_iff]
  · intro s l
    by_cases hs : s.groups = []
    · simp [FilterSet.matches, hs]
    · simp [FilterSet.matches, hs, List.all_eq_true, List.isEmpty_iff]
  · intro f l hdis
    simp [Filter.matches, hdis]
  · intro s l hs
    simp [FilterSet.matches, hs]
  · exact updateFilteredLogs_eq

/-- Witness for claim C10: a disabled filter matches a line its pattern
does not occur in. -/
theorem filter_set_semantics_and_filtered_view_witness :
    (Filter.with_enabled ['x'] false).matches [121, 122] = true :=
  filter_set_semantics_and_filtered_view.2.2.1
    (Filter.with_enabled ['x'] false) [121, 122] (by decide)

end QLog
